import Mathlib

/-!
Verification model of the BudBridge audio/network bridge
(src/windows/src/main.rs).

The development shallowly embeds the bridge's core data paths:
  * quantization of captured 32-bit float samples to 16-bit PCM
    (`build_input_stream`, line 976), with a four-valued float model that
    carries NaN and the infinities so that the saturating `as i16` cast can
    be stated;
  * downmix and decimation of the capture callback (`build_input_stream`,
    lines 965-977);
  * little-endian byte encoding and decoding of PCM blocks (`run_network`,
    lines 870-873 and 903);
  * chunked datagram production (`run_network`, lines 903-905);
  * the playback jitter buffer's append-and-trim discipline
    (`build_output_stream`, lines 1010-1022) and the output callback's
    underrun behaviour (lines 1024-1045);
  * the connect-request validation of the UI layer (`connect`,
    lines 205-209).

Finite float values are modelled as exact rationals; the arithmetic the
claims touch (clamping, comparison against constants, multiplication by the
scale 32767, halving of exactly representable values) is exact on the
inputs the theorems use, so the rational model agrees with f32 there.
-/

set_option linter.unusedVariables false

namespace BudBridge

/-- Target sample rate constant of the build (main.rs line 26). -/
def TARGET_SAMPLE_RATE : Nat := 48000

/-- Jitter-buffer capacity in samples: `48000 / 20`, about 50 ms of audio
(main.rs line 1016). -/
def jitterCapacity : Nat := 48000 / 20

/-- Value of one 32-bit floating-point sample: a finite value, modelled as an
exact rational, or one of the special values NaN, positive infinity and
negative infinity. -/
inductive Fl where
  | fin (q : ℚ)
  | nan
  | pinf
  | ninf

/-- Rust `f32::clamp(-1.0, 1.0)` on finite values: below the lower bound the
result is the lower bound, above the upper bound the upper bound, otherwise
the value itself. -/
def clampQ (q : ℚ) : ℚ :=
  if q < -1 then -1 else if 1 < q then 1 else q

/-- `s.clamp(-1.0, 1.0)` on the full float model: a NaN input propagates,
the infinities compare against the bounds and clamp to them. -/
def clampF : Fl → Fl
  | .fin q => .fin (clampQ q)
  | .nan => .nan
  | .pinf => .fin 1
  | .ninf => .fin (-1)

/-- Truncation of a rational toward zero, as Rust float-to-integer casts
truncate. -/
def ratTrunc (q : ℚ) : Int :=
  if 0 ≤ q then ⌊q⌋ else -⌊-q⌋

/-- Rust `as i16` on a finite float value: saturating at the i16 bounds,
truncating toward zero inside them. -/
def satCastI16 (q : ℚ) : Int :=
  if q < -32768 then -32768 else if 32767 < q then 32767 else ratTrunc q

/-- Multiplication by the quantization scale 32767.0 on the float model;
exact on the finite values the theorems use. -/
def mulScale : Fl → Fl
  | .fin q => .fin (q * 32767)
  | .nan => .nan
  | .pinf => .pinf
  | .ninf => .ninf

/-- Rust `as i16` on the full float model: NaN casts to 0, the infinities
saturate at the i16 bounds, finite values go through `satCastI16`. -/
def castI16 : Fl → Int
  | .fin q => satCastI16 q
  | .nan => 0
  | .pinf => 32767
  | .ninf => -32768

/-- The capture quantizer `(s.clamp(-1.0, 1.0) * 32767.0) as i16`
(main.rs line 976) on the full float model. -/
def quantizeF (x : Fl) : Int := castI16 (mulScale (clampF x))

/-- The capture quantizer restricted to finite samples. -/
def quantizeQ (q : ℚ) : Int := satCastI16 (clampQ q * 32767)

/-- Little-endian encoding of one i16 sample into two bytes,
`s.to_le_bytes()` (main.rs line 903); the sample is an integer in
[-32768, 32767], its two's-complement value reduced modulo 2^16 and split. -/
def toLeBytes (s : Int) : List Nat :=
  [(s % 65536).toNat % 256, (s % 65536).toNat / 256]

/-- `i16::from_le_bytes([b0, b1])` (main.rs line 872): the little-endian
value, reinterpreted as two's complement. -/
def fromLeBytes (b0 b1 : Nat) : Int :=
  let n := b0 + 256 * b1
  if n < 32768 then (n : Int) else (n : Int) - 65536

/-- Serialization of a PCM block:
`samples.iter().flat_map(|s| s.to_le_bytes())` (main.rs line 903). -/
def encodePcm (samples : List Int) : List Nat :=
  samples.flatMap toLeBytes

/-- Decoding of a received payload:
`recv_buf[..len].chunks_exact(2).map(i16::from_le_bytes)` (main.rs
lines 870-873); a trailing odd byte is not part of any chunk and is
dropped. -/
def decodePcm : List Nat → List Int
  | [] => []
  | [_] => []
  | b0 :: b1 :: rest => fromLeBytes b0 b1 :: decodePcm rest

/-- The downsample ratio of `build_input_stream` (main.rs lines 945-949):
the integer quotient when the native rate exceeds the target rate, else 1. -/
def downsampleRatio (native target : Nat) : Nat :=
  if target < native then native / target else 1

/-- Rust `Iterator::step_by(r)` on a list, `r ≥ 1`: the first element, then
every r-th element after it (main.rs line 975). -/
def stepBy {α : Type} (r : Nat) : List α → List α
  | [] => []
  | x :: xs => x :: stepBy r (xs.drop (r - 1))
termination_by l => l.length
decreasing_by simp [List.length_drop]; omega

/-- Rust `slice::chunks(n)` on a list, `n ≥ 1`: consecutive chunks of n
elements, the last possibly shorter (main.rs line 904). -/
def chunksList {α : Type} (n : Nat) : List α → List (List α)
  | [] => []
  | x :: xs => (x :: xs.take (n - 1)) :: chunksList n (xs.drop (n - 1))
termination_by l => l.length
decreasing_by simp [List.length_drop]; omega

/-- The downmix step of the capture callback (main.rs lines 965-971): a
stereo stream is averaged pairwise into mono, anything else passes through
unchanged. -/
def downmix (channels : Nat) (data : List ℚ) : List ℚ :=
  if channels = 2 then
    (chunksList 2 data).map (fun c => (c.getD 0 0 + c.getD 1 0) / 2)
  else data

/-- The capture pipeline of one callback invocation (main.rs lines 959-990):
downmix, decimate by the downsample ratio, quantize each kept sample. -/
def capturePipeline (channels native target : Nat) (data : List ℚ) : List Int :=
  (stepBy (downsampleRatio native target) (downmix channels data)).map quantizeQ

/-- The operational counters of `AppState` that the network loop writes
(main.rs lines 54-64). -/
structure NetCounters where
  packets_recv : Nat
  packets_recv_with_audio : Nat
  packets_sent : Nat
  packets_sent_with_audio : Nat
deriving DecidableEq

/-- `i16::abs` as release builds compute it: the two's-complement negation,
which returns -32768 unchanged for the minimum value. -/
def i16Abs (s : Int) : Int := if s = -32768 then -32768 else |s|

/-- The amplitude-threshold heuristic
`samples.iter().any(|&s| s.abs() > 100)` (main.rs lines 874, 898). -/
def hasAudio (samples : List Int) : Bool :=
  samples.any (fun s => 100 < i16Abs s)

/-- One successful receive of the network loop (main.rs lines 867-889):
increment the received-packet counter, decode the payload, classify it, and
produce the decoded samples for the playback queue. -/
def recvDatagram (st : NetCounters) (bytes : List Nat) : NetCounters × List Int :=
  let samples := decodePcm bytes
  ({ st with
      packets_recv := st.packets_recv + 1,
      packets_recv_with_audio :=
        st.packets_recv_with_audio + (if hasAudio samples then 1 else 0) },
   samples)

/-- The datagrams the send side produces from one PCM block
(main.rs lines 903-905): the little-endian bytes split into chunks of at
most 1400. -/
def sendDatagrams (samples : List Int) : List (List Nat) :=
  chunksList 1400 (encodePcm samples)

/-- Conversion of one received PCM sample to the float range for playback,
`s as f32 / 32768.0` (main.rs line 1012). -/
def pcmToFloat (s : Int) : ℚ := (s : ℚ) / 32768

/-- The trim loop of the jitter-buffer feeder,
`while buf.len() > max_samples { buf.pop_front(); }` (main.rs
lines 1017-1019): drop from the head until the length is within `cap`. -/
def trimFront {α : Type} (cap : Nat) : List α → List α
  | [] => []
  | x :: xs => if cap < xs.length + 1 then trimFront cap xs else x :: xs

/-- One append to the jitter buffer (main.rs lines 1014-1019): extend at the
tail, then trim from the head to the capacity. -/
def jitterAppend {α : Type} (cap : Nat) (buf xs : List α) : List α :=
  trimFront cap (buf ++ xs)

/-- `buf.pop_front().unwrap_or(0.0)` (main.rs lines 1030, 1038). -/
def popFrontQ : List ℚ → ℚ × List ℚ
  | [] => (0, [])
  | x :: xs => (x, xs)

/-- The mono branch of the output callback (main.rs lines 1037-1039): one
pop per output slot. -/
def drainMono : Nat → List ℚ → List ℚ × List ℚ
  | 0, buf => ([], buf)
  | n + 1, buf =>
      let p := popFrontQ buf
      let r := drainMono n p.2
      (p.1 :: r.1, r.2)

/-- The stereo branch of the output callback (main.rs lines 1028-1035): one
pop per frame of two slots, the sample duplicated to both channels; a
trailing odd slot gets one copy. -/
def drainStereo : Nat → List ℚ → List ℚ × List ℚ
  | 0, buf => ([], buf)
  | 1, buf => ((popFrontQ buf).1 :: [], (popFrontQ buf).2)
  | n + 2, buf =>
      let p := popFrontQ buf
      let r := drainStereo n p.2
      (p.1 :: p.1 :: r.1, r.2)

/-- The output callback filling `slots` output slots from the jitter buffer
(main.rs lines 1024-1045): the filled slots and the remaining buffer. -/
def drainOutput (channels slots : Nat) (buf : List ℚ) : List ℚ × List ℚ :=
  if channels = 2 then drainStereo slots buf else drainMono slots buf

/-- The UI-visible state `connect` touches (main.rs lines 53-64, 205-254):
the per-session counters, the status string, the connected flag, the stop
flag, and whether a session thread has been spawned. -/
structure AppModel where
  packets_sent : Nat
  packets_recv : Nat
  packets_recv_with_audio : Nat
  packets_sent_with_audio : Nat
  audio_callbacks : Nat
  status_message : String
  is_connected : Bool
  stop_flag : Bool
  session_thread_running : Bool
deriving DecidableEq

/-- Rust `str::trim`: the string without leading and trailing whitespace,
on the character-list model of the destination address. -/
def wsTrim (l : List Char) : List Char :=
  ((l.dropWhile Char.isWhitespace).reverse.dropWhile Char.isWhitespace).reverse

/-- `BudBridgeApp::connect` (main.rs lines 205-254) restricted to the state
it mutates: a blank destination address only sets the status string; a
non-blank one clears the stop flag, resets the counters, marks the session
connected, sets the status and spawns the session thread. -/
def connect (iphone_ip : List Char) (st : AppModel) : AppModel :=
  if (wsTrim iphone_ip).isEmpty then
    { st with status_message := "Please select a device first" }
  else
    { st with
        stop_flag := false,
        packets_sent := 0,
        packets_recv := 0,
        packets_recv_with_audio := 0,
        packets_sent_with_audio := 0,
        audio_callbacks := 0,
        is_connected := true,
        status_message := "Connecting...",
        session_thread_running := true }

/-! Helper lemmas about the jitter buffer's trim loop. -/

theorem trimFront_eq_drop {α : Type} (cap : Nat) (l : List α) :
    trimFront cap l = l.drop (l.length - cap) := by
  induction l with
  | nil => simp [trimFront]
  | cons x xs ih =>
      simp only [trimFront]
      split
      · next hlt =>
          rw [ih]
          have e : xs.length + 1 - cap = (xs.length - cap) + 1 := by omega
          simp only [List.length_cons, e, List.drop_succ_cons]
      · next hge =>
          have e : xs.length + 1 - cap = 0 := by omega
          simp only [List.length_cons, e, List.drop_zero]

theorem jitterAppend_drop {α : Type} (cap : Nat) (S xs : List α) :
    jitterAppend cap (S.drop (S.length - cap)) xs
      = (S ++ xs).drop ((S ++ xs).length - cap) := by
  unfold jitterAppend
  rw [trimFront_eq_drop]
  rw [← List.drop_append_of_le_length (by omega : S.length - cap ≤ S.length)]
  rw [List.drop_drop]
  congr 1
  simp only [List.length_drop, List.length_append]
  omega

theorem foldl_jitterAppend {α : Type} (cap : Nat) (batches : List (List α)) :
    ∀ S : List α,
      batches.foldl (jitterAppend cap) (S.drop (S.length - cap))
        = (S ++ batches.flatten).drop ((S ++ batches.flatten).length - cap) := by
  induction batches with
  | nil => intro S; simp
  | cons b bs ih =>
      intro S
      rw [List.foldl_cons, jitterAppend_drop, ih (S ++ b)]
      simp [List.append_assoc]

/-- C1: for every capacity and every sequence of appends, the jitter buffer
holds exactly the suffix of the concatenated pushed stream that fits the
capacity — the most recently appended samples, with the oldest evicted from
the head — and its length is the minimum of the total pushed and the
capacity. -/
theorem C1_jitter_buffer_window {α : Type} (cap : Nat) (batches : List (List α)) :
    batches.foldl (jitterAppend cap) []
        = batches.flatten.drop (batches.flatten.length - cap)
      ∧ (batches.foldl (jitterAppend cap) []).length
        = min batches.flatten.length cap := by
  have h0 : ([] : List α) = ([] : List α).drop (([] : List α).length - cap) := by simp
  constructor
  · rw [h0, foldl_jitterAppend cap batches []]
    simp
  · rw [h0, foldl_jitterAppend cap batches []]
    simp only [List.nil_append, List.length_drop]
    omega

/-! Helper lemmas about the byte encoding of PCM samples. -/

theorem fromLeBytes_toLeBytes (s : Int) (h1 : -32768 ≤ s) (h2 : s < 32768) :
    fromLeBytes ((s % 65536).toNat % 256) ((s % 65536).toNat / 256) = s := by
  have h0 : (0 : Int) ≤ s % 65536 := Int.emod_nonneg s (by norm_num)
  have hn : ((s % 65536).toNat : Int) = s % 65536 := Int.toNat_of_nonneg h0
  simp only [fromLeBytes]
  have hrec : (s % 65536).toNat % 256 + 256 * ((s % 65536).toNat / 256)
      = (s % 65536).toNat := by omega
  rw [hrec]
  split <;> omega

theorem toLeBytes_fromLeBytes (b0 b1 : Nat) (h0 : b0 < 256) (h1 : b1 < 256) :
    toLeBytes (fromLeBytes b0 b1) = [b0, b1] := by
  have e : ((fromLeBytes b0 b1) % 65536).toNat = b0 + 256 * b1 := by
    simp only [fromLeBytes]
    split <;> omega
  simp only [toLeBytes, e, List.cons.injEq, and_true]
  constructor <;> omega

theorem decodePcm_encodePcm (samples : List Int)
    (h : ∀ s ∈ samples, -32768 ≤ s ∧ s < 32768) :
    decodePcm (encodePcm samples) = samples := by
  induction samples with
  | nil => simp [encodePcm, decodePcm]
  | cons s rest ih =>
      have hs := h s (List.mem_cons_self s rest)
      have hcons : encodePcm (s :: rest)
          = (s % 65536).toNat % 256 :: (s % 65536).toNat / 256 :: encodePcm rest := by
        simp [encodePcm, toLeBytes]
      rw [hcons]
      simp only [decodePcm]
      rw [ih (fun t ht => h t (List.mem_cons_of_mem s ht))]
      rw [fromLeBytes_toLeBytes s hs.1 hs.2]

theorem encodePcm_decodePcm (bytes : List Nat) (h : ∀ b ∈ bytes, b < 256) :
    encodePcm (decodePcm bytes) = bytes.take (2 * (bytes.length / 2)) := by
  induction bytes using decodePcm.induct with
  | case1 => simp [decodePcm, encodePcm]
  | case2 b => simp [decodePcm, encodePcm]
  | case3 b0 b1 rest ih =>
      have hb0 := h b0 (by simp)
      have hb1 := h b1 (by simp)
      simp only [decodePcm]
      have hcons : encodePcm (fromLeBytes b0 b1 :: decodePcm rest)
          = toLeBytes (fromLeBytes b0 b1) ++ encodePcm (decodePcm rest) := by
        simp [encodePcm]
      rw [hcons]
      rw [ih (fun t ht => h t (by simp [ht]))]
      rw [toLeBytes_fromLeBytes b0 b1 hb0 hb1]
      have e : 2 * ((b0 :: b1 :: rest).length / 2) = 2 * (rest.length / 2) + 2 := by
        simp only [List.length_cons]; omega
      rw [e]
      simp [List.take_succ_cons]

/-- C2: decoding the little-endian byte encoding of any i16 sample sequence
gives back the samples, and encoding the decoding of any byte sequence gives
back the bytes up to the largest even prefix — only a trailing odd byte is
dropped. -/
theorem C2_pcm_roundtrip (samples : List Int) (bytes : List Nat)
    (hs : ∀ s ∈ samples, -32768 ≤ s ∧ s < 32768) (hb : ∀ b ∈ bytes, b < 256) :
    decodePcm (encodePcm samples) = samples
      ∧ encodePcm (decodePcm bytes) = bytes.take (2 * (bytes.length / 2)) :=
  ⟨decodePcm_encodePcm samples hs, encodePcm_decodePcm bytes hb⟩

/-- Witness for C2 at a concrete block and a concrete odd-length payload. -/
theorem C2_pcm_roundtrip_witness :
    (∀ s ∈ ([0, 1, -1, 32767, -32768] : List Int), -32768 ≤ s ∧ s < 32768)
      ∧ (∀ b ∈ ([0, 1, 255, 254, 7] : List Nat), b < 256)
      ∧ decodePcm (encodePcm [0, 1, -1, 32767, -32768]) = [0, 1, -1, 32767, -32768]
      ∧ encodePcm (decodePcm [0, 1, 255, 254, 7])
        = ([0, 1, 255, 254, 7] : List Nat).take
            (2 * (([0, 1, 255, 254, 7] : List Nat).length / 2)) :=
  ⟨by decide, by decide,
   (C2_pcm_roundtrip [0, 1, -1, 32767, -32768] [0, 1, 255, 254, 7]
     (by decide) (by decide)).1,
   (C2_pcm_roundtrip [0, 1, -1, 32767, -32768] [0, 1, 255, 254, 7]
     (by decide) (by decide)).2⟩

/-! Helper lemmas about decimation. -/

theorem stepBy_length {α : Type} (r : Nat) (hr : 1 ≤ r) (l : List α) :
    (stepBy r l).length = (l.length + r - 1) / r := by
  induction l using stepBy.induct r with
  | case1 =>
      simp only [stepBy, List.length_nil, Nat.zero_add]
      rw [Nat.div_eq_of_lt (by omega)]
  | case2 x xs ih =>
      simp only [stepBy, List.length_cons]
      rw [ih, List.length_drop]
      have e2 : xs.length + 1 + r - 1 = xs.length + r := by omega
      rw [e2, Nat.add_div_right xs.length (by omega)]
      rcases le_or_lt (r - 1) xs.length with hle | hlt
      · have e1 : xs.length - (r - 1) + r - 1 = xs.length := by omega
        rw [e1]
      · have e1 : xs.length - (r - 1) = 0 := by omega
        rw [e1]
        rw [Nat.div_eq_of_lt (by omega), Nat.div_eq_of_lt (by omega)]

theorem stepBy_getElem {α : Type} (r : Nat) (hr : 1 ≤ r) (l : List α) :
    ∀ i : Nat, (stepBy r l)[i]? = l[i * r]? := by
  induction l using stepBy.induct r with
  | case1 => intro i; simp [stepBy]
  | case2 x xs ih =>
      intro i
      cases i with
      | zero => simp [stepBy]
      | succ j =>
          simp only [stepBy, List.getElem?_cons_succ]
          rw [ih j, List.getElem?_drop]
          have e : r - 1 + j * r = (j + 1) * r - 1 := by
            rw [Nat.succ_mul]
            generalize j * r = m
            omega
          have e2 : (j + 1) * r = ((j + 1) * r - 1) + 1 := by
            have h1 : 1 ≤ (j + 1) * r := Nat.one_le_iff_ne_zero.mpr
              (Nat.mul_ne_zero (by omega) (by omega))
            omega
          conv_rhs => rw [e2, List.getElem?_cons_succ]
          rw [e]

/-- C3: the downsample ratio is the floor quotient of the native rate by the
target rate when the native rate is larger and 1 otherwise; decimating a
mono input of length L with ratio R keeps exactly the samples at input
positions 0, R, 2R, ..., so the output has ceil(L / R) samples. -/
theorem C3_downsample (native target : Nat) (l : List ℚ) (ht : 1 ≤ target) :
    downsampleRatio native target
        = (if target < native then native / target else 1)
      ∧ 1 ≤ downsampleRatio native target
      ∧ (stepBy (downsampleRatio native target) l).length
        = (l.length + downsampleRatio native target - 1) / downsampleRatio native target
      ∧ ∀ i : Nat, (stepBy (downsampleRatio native target) l)[i]?
        = l[i * downsampleRatio native target]? := by
  have h1 : 1 ≤ downsampleRatio native target := by
    unfold downsampleRatio
    split
    · next hlt => exact (Nat.one_le_div_iff (by omega)).mpr (Nat.le_of_lt hlt)
    · exact le_refl 1
  exact ⟨rfl, h1, stepBy_length _ h1 l, stepBy_getElem _ h1 l⟩

/-- Witness for C3 at rates 48000 and 24000 (ratio 2) and a five-sample
input. -/
theorem C3_downsample_witness :
    1 ≤ 24000
      ∧ (stepBy (downsampleRatio 48000 24000) ([0, 1, 0, 1, 0] : List ℚ)).length
        = (([0, 1, 0, 1, 0] : List ℚ).length + downsampleRatio 48000 24000 - 1)
            / downsampleRatio 48000 24000 :=
  ⟨by decide, (C3_downsample 48000 24000 [0, 1, 0, 1, 0] (by decide)).2.2.1⟩

/-! Helper lemmas about the quantizer. -/

theorem ratTrunc_intCast (z : Int) : ratTrunc (z : ℚ) = z := by
  unfold ratTrunc
  split
  · exact Int.floor_intCast z
  · rw [← Int.cast_neg, Int.floor_intCast, neg_neg]

theorem ratTrunc_mono {p q : ℚ} (h : p ≤ q) : ratTrunc p ≤ ratTrunc q := by
  unfold ratTrunc
  split_ifs with hp hq hq
  · exact Int.floor_le_floor h
  · exfalso
    simp only [not_le] at hq
    linarith
  · have g1 : 0 ≤ ⌊q⌋ := Int.floor_nonneg.mpr hq
    have g2 : 0 ≤ ⌊-p⌋ := by
      simp only [not_le] at hp
      exact Int.floor_nonneg.mpr (by linarith)
    omega
  · have g := Int.floor_le_floor (show -q ≤ -p by linarith)
    omega

theorem satCastI16_eq_ratTrunc (q : ℚ) (h1 : -32768 ≤ q) (h2 : q ≤ 32767) :
    satCastI16 q = ratTrunc q := by
  unfold satCastI16
  rw [if_neg (not_lt.mpr h1), if_neg (not_lt.mpr h2)]

theorem satCastI16_intCast (z : Int) (h1 : -32768 ≤ z) (h2 : z ≤ 32767) :
    satCastI16 (z : ℚ) = z := by
  rw [satCastI16_eq_ratTrunc (z : ℚ) (by exact_mod_cast h1) (by exact_mod_cast h2)]
  exact ratTrunc_intCast z

theorem clampQ_mem (q : ℚ) : -1 ≤ clampQ q ∧ clampQ q ≤ 1 := by
  unfold clampQ
  split_ifs with h1 h2 <;> constructor <;> simp only [not_lt] at * <;> linarith

theorem clampQ_mono {p q : ℚ} (h : p ≤ q) : clampQ p ≤ clampQ q := by
  unfold clampQ
  split_ifs <;> simp only [not_lt] at * <;> linarith

theorem quantizeQ_mono {a b : ℚ} (h : a ≤ b) : quantizeQ a ≤ quantizeQ b := by
  have ha := clampQ_mem a
  have hb := clampQ_mem b
  have ma1 : (-1 : ℚ) * 32767 ≤ clampQ a * 32767 :=
    mul_le_mul_of_nonneg_right ha.1 (by norm_num)
  have ma2 : clampQ a * 32767 ≤ (1 : ℚ) * 32767 :=
    mul_le_mul_of_nonneg_right ha.2 (by norm_num)
  have mb1 : (-1 : ℚ) * 32767 ≤ clampQ b * 32767 :=
    mul_le_mul_of_nonneg_right hb.1 (by norm_num)
  have mb2 : clampQ b * 32767 ≤ (1 : ℚ) * 32767 :=
    mul_le_mul_of_nonneg_right hb.2 (by norm_num)
  unfold quantizeQ
  rw [satCastI16_eq_ratTrunc (clampQ a * 32767) (by linarith) (by linarith)]
  rw [satCastI16_eq_ratTrunc (clampQ b * 32767) (by linarith) (by linarith)]
  exact ratTrunc_mono (mul_le_mul_of_nonneg_right (clampQ_mono h) (by norm_num))

theorem quantizeQ_neg_one : quantizeQ (-1) = -32767 := by
  have hc : clampQ (-1) = -1 := by unfold clampQ; norm_num
  unfold quantizeQ
  rw [hc, show ((-1 : ℚ)) * 32767 = ((-32767 : Int) : ℚ) by norm_num]
  exact satCastI16_intCast (-32767) (by norm_num) (by norm_num)

theorem quantizeQ_one : quantizeQ 1 = 32767 := by
  have hc : clampQ 1 = 1 := by unfold clampQ; norm_num
  unfold quantizeQ
  rw [hc, show ((1 : ℚ)) * 32767 = ((32767 : Int) : ℚ) by norm_num]
  exact satCastI16_intCast 32767 (by norm_num) (by norm_num)

theorem quantizeQ_bounds (q : ℚ) : -32767 ≤ quantizeQ q ∧ quantizeQ q ≤ 32767 := by
  rcases le_total q (-1) with h | h
  · have e : quantizeQ q = quantizeQ (-1) := by
      unfold quantizeQ
      rw [show clampQ q = clampQ (-1) by
        unfold clampQ
        split_ifs <;> simp only [not_lt] at * <;> linarith]
    rw [e, quantizeQ_neg_one]
    norm_num
  · rcases le_total 1 q with h2 | h2
    · have e : quantizeQ q = quantizeQ 1 := by
        unfold quantizeQ
        rw [show clampQ q = clampQ 1 by
          unfold clampQ
          split_ifs <;> simp only [not_lt] at * <;> linarith]
      rw [e, quantizeQ_one]
      norm_num
    · constructor
      · have g := quantizeQ_mono h
        rw [quantizeQ_neg_one] at g
        exact g
      · have g := quantizeQ_mono h2
        rw [quantizeQ_one] at g
        exact g

/-- C5: the quantizer is monotone on [-1, 1], and the boundary inputs -1.0
and 1.0 quantize to -32767 and 32767 — never -32768. -/
theorem C5_quantize_monotone (a b : ℚ) (h1 : -1 ≤ a) (h2 : a ≤ b) (h3 : b ≤ 1) :
    quantizeQ a ≤ quantizeQ b
      ∧ quantizeQ (-1) = -32767 ∧ quantizeQ 1 = 32767 :=
  ⟨quantizeQ_mono h2, quantizeQ_neg_one, quantizeQ_one⟩

/-- Witness for C5 at the boundary pair a = -1, b = 1. -/
theorem C5_quantize_monotone_witness :
    (-1 : ℚ) ≤ -1 ∧ (-1 : ℚ) ≤ 1 ∧ (1 : ℚ) ≤ 1
      ∧ (quantizeQ (-1) ≤ quantizeQ 1
        ∧ quantizeQ (-1) = -32767 ∧ quantizeQ 1 = 32767) :=
  ⟨le_refl (-1 : ℚ), neg_le_self zero_le_one, le_refl (1 : ℚ),
   C5_quantize_monotone (-1) 1 (le_refl (-1 : ℚ)) (neg_le_self zero_le_one)
     (le_refl (1 : ℚ))⟩

/-- C10: the quantizer is total on the full float domain — for every input,
finite or not, the result lies in [-32767, 32767], and a NaN input
quantizes to 0 (clamp propagates NaN, the saturating cast sends NaN
to 0). -/
theorem C10_quantize_total (x : Fl) :
    -32767 ≤ quantizeF x ∧ quantizeF x ≤ 32767 ∧ quantizeF Fl.nan = 0 := by
  refine ⟨?_, ?_, rfl⟩ <;>
  · cases x with
    | fin q =>
        have hb : -32767 ≤ quantizeQ q ∧ quantizeQ q ≤ 32767 := quantizeQ_bounds q
        have e : quantizeF (Fl.fin q) = quantizeQ q := rfl
        rw [e]
        omega
    | nan =>
        have e : quantizeF Fl.nan = 0 := rfl
        rw [e]
        norm_num
    | pinf =>
        have e : quantizeF Fl.pinf = satCastI16 ((1 : ℚ) * 32767) := rfl
        rw [e, show ((1 : ℚ)) * 32767 = ((32767 : Int) : ℚ) by norm_num,
          satCastI16_intCast 32767 (by norm_num) (by norm_num)]
        try norm_num
    | ninf =>
        have e : quantizeF Fl.ninf = satCastI16 ((-1 : ℚ) * 32767) := rfl
        rw [e, show ((-1 : ℚ)) * 32767 = ((-32767 : Int) : ℚ) by norm_num,
          satCastI16_intCast (-32767) (by norm_num) (by norm_num)]
        try norm_num

/-! The concrete capture scenario. -/

theorem stepBy_replicate {α : Type} (r : Nat) (hr : 1 ≤ r) (n : Nat) (a : α) :
    stepBy r (List.replicate n a) = List.replicate ((n + r - 1) / r) a := by
  apply List.ext_getElem?
  intro i
  rw [stepBy_getElem r hr]
  simp only [List.getElem?_replicate]
  have key : i * r < n ↔ i + 1 ≤ (n + r - 1) / r := by
    rw [Nat.le_div_iff_mul_le (by omega : 0 < r), Nat.succ_mul]
    generalize i * r = m
    omega
  by_cases hc : i * r < n
  · rw [if_pos hc, if_pos (Nat.lt_iff_add_one_le.mpr (key.mp hc))]
  · rw [if_neg hc, if_neg (fun hl => hc (key.mpr (Nat.lt_iff_add_one_le.mp hl)))]

theorem quantizeQ_half : quantizeQ (1 / 2) = 16383 := by
  have hc : clampQ (1 / 2) = 1 / 2 := by unfold clampQ; norm_num
  unfold quantizeQ
  rw [hc]
  unfold satCastI16
  rw [if_neg (by norm_num), if_neg (by norm_num)]
  unfold ratTrunc
  rw [if_pos (by norm_num)]
  rw [show ((1 : ℚ) / 2) * 32767 = 32767 / 2 by ring]
  norm_num [Int.floor_eq_iff]

/-- C4: a mono capture batch of 960 samples of value 0.5 at native rate
48000 with target rate 24000 produces one PCM block of exactly 480 samples,
each equal to 16383 (0.5 scaled by 32767 and truncated). -/
theorem C4_capture_scenario :
    capturePipeline 1 48000 24000 (List.replicate 960 (1 / 2 : ℚ))
      = List.replicate 480 (16383 : Int) := by
  have hr : downsampleRatio 48000 24000 = 2 := by norm_num [downsampleRatio]
  have hm : downmix 1 (List.replicate 960 (1 / 2 : ℚ))
      = List.replicate 960 (1 / 2 : ℚ) := by
    simp [downmix]
  unfold capturePipeline
  rw [hm, hr, stepBy_replicate 2 (by omega) 960 ((1 : ℚ) / 2)]
  rw [show (960 + 2 - 1) / 2 = 480 by norm_num]
  rw [List.map_replicate, quantizeQ_half]

/-! Receive-side behaviour on an odd-length datagram. -/

theorem decodePcm_length (bytes : List Nat) :
    (decodePcm bytes).length = bytes.length / 2 := by
  induction bytes using decodePcm.induct with
  | case1 => simp [decodePcm]
  | case2 b => simp [decodePcm]
  | case3 b0 b1 rest ih =>
      simp only [decodePcm, List.length_cons, ih]
      omega

theorem decodePcm_take_even (bytes : List Nat) :
    decodePcm bytes = decodePcm (bytes.take (2 * (bytes.length / 2))) := by
  induction bytes using decodePcm.induct with
  | case1 => simp [decodePcm]
  | case2 b => simp [decodePcm]
  | case3 b0 b1 rest ih =>
      have e : 2 * ((b0 :: b1 :: rest).length / 2) = 2 * (rest.length / 2) + 2 := by
        simp only [List.length_cons]; omega
      rw [e]
      simp only [List.take_succ_cons, decodePcm]
      rw [← ih]

/-- C6: on a 7-byte datagram the receive path decodes exactly 3 samples,
the decoded samples are exactly those of the first 6 bytes — the odd
trailing byte is discarded, and no error path exists — and the
received-packet counter grows by exactly 1. -/
theorem C6_odd_datagram (st : NetCounters) (bytes : List Nat)
    (h : bytes.length = 7) :
    ((recvDatagram st bytes).2).length = 3
      ∧ (recvDatagram st bytes).2 = decodePcm (bytes.take 6)
      ∧ (recvDatagram st bytes).1.packets_recv = st.packets_recv + 1 := by
  refine ⟨?_, ?_, rfl⟩
  · show (decodePcm bytes).length = 3
    rw [decodePcm_length, h]
  · show decodePcm bytes = decodePcm (bytes.take 6)
    have e : (6 : Nat) = 2 * (bytes.length / 2) := by rw [h]
    rw [e, ← decodePcm_take_even]

/-- Witness for C6 at a concrete 7-byte datagram and zeroed counters. -/
theorem C6_odd_datagram_witness :
    ([1, 0, 2, 0, 3, 0, 9] : List Nat).length = 7
      ∧ (((recvDatagram ⟨0, 0, 0, 0⟩ [1, 0, 2, 0, 3, 0, 9]).2).length = 3
        ∧ (recvDatagram ⟨0, 0, 0, 0⟩ [1, 0, 2, 0, 3, 0, 9]).2
          = decodePcm (([1, 0, 2, 0, 3, 0, 9] : List Nat).take 6)
        ∧ (recvDatagram ⟨0, 0, 0, 0⟩ [1, 0, 2, 0, 3, 0, 9]).1.packets_recv
          = (⟨0, 0, 0, 0⟩ : NetCounters).packets_recv + 1) :=
  ⟨rfl, C6_odd_datagram ⟨0, 0, 0, 0⟩ [1, 0, 2, 0, 3, 0, 9] rfl⟩

/-! Send-side datagram invariants. -/

theorem encodePcm_length (samples : List Int) :
    (encodePcm samples).length = 2 * samples.length := by
  induction samples with
  | nil => simp [encodePcm]
  | cons s rest ih =>
      have hcons : encodePcm (s :: rest) = toLeBytes s ++ encodePcm rest := by
        simp [encodePcm]
      rw [hcons, List.length_append, ih]
      simp only [toLeBytes, List.length_cons, List.length_nil]
      omega

theorem chunksList_length_le {α : Type} (n : Nat) (hn : 1 ≤ n) :
    ∀ (l : List α), ∀ d ∈ chunksList n l, d.length ≤ n := by
  intro l
  induction l using chunksList.induct n with
  | case1 => intro d hd; simp [chunksList] at hd
  | case2 x xs ih =>
      intro d hd
      simp only [chunksList, List.mem_cons] at hd
      rcases hd with hd | hd
      · subst hd
        simp only [List.length_cons, List.length_take]
        omega
      · exact ih d hd

theorem chunksList_length_even {α : Type} (n : Nat) (hn : 0 < n)
    (hn2 : n % 2 = 0) :
    ∀ (l : List α), l.length % 2 = 0 → ∀ d ∈ chunksList n l, d.length % 2 = 0 := by
  intro l
  induction l using chunksList.induct n with
  | case1 => intro hl d hd; simp [chunksList] at hd
  | case2 x xs ih =>
      intro hl d hd
      simp only [List.length_cons] at hl
      simp only [chunksList, List.mem_cons] at hd
      rcases hd with hd | hd
      · subst hd
        simp only [List.length_cons, List.length_take]
        omega
      · refine ih ?_ d hd
        simp only [List.length_drop]
        omega

/-- C7: every datagram the send side produces from a PCM block has even
byte length — it carries a whole number of 16-bit samples — and is at most
1400 bytes, below the MTU cap. -/
theorem C7_datagram_invariant (samples : List Int) (d : List Nat)
    (hd : d ∈ sendDatagrams samples) :
    d.length % 2 = 0 ∧ d.length ≤ 1400 := by
  unfold sendDatagrams at hd
  constructor
  · refine chunksList_length_even 1400 (by omega) (by omega)
      (encodePcm samples) ?_ d hd
    rw [encodePcm_length]
    omega
  · exact chunksList_length_le 1400 (by omega) (encodePcm samples) d hd

/-- Witness for C7 at a two-sample block producing one four-byte
datagram. -/
theorem C7_datagram_invariant_witness :
    ([1, 0, 2, 0] : List Nat) ∈ sendDatagrams [1, 2]
      ∧ (([1, 0, 2, 0] : List Nat).length % 2 = 0
        ∧ ([1, 0, 2, 0] : List Nat).length ≤ 1400) :=
  ⟨by simp [sendDatagrams, encodePcm, toLeBytes, chunksList],
   C7_datagram_invariant [1, 2] [1, 0, 2, 0]
     (by simp [sendDatagrams, encodePcm, toLeBytes, chunksList])⟩

/-! Output-callback underrun behaviour. -/

theorem drainMono_nil (n : Nat) : drainMono n [] = (List.replicate n 0, []) := by
  induction n with
  | zero => simp [drainMono]
  | succ m ih => simp [drainMono, popFrontQ, ih, List.replicate_succ]

theorem drainStereo_nil (n : Nat) :
    drainStereo n [] = (List.replicate n 0, []) := by
  induction n using Nat.strong_induction_on with
  | _ n ih =>
      match n with
      | 0 => simp [drainStereo]
      | 1 => simp [drainStereo, popFrontQ]
      | m + 2 =>
          simp [drainStereo, popFrontQ, ih m (by omega), List.replicate_succ]

/-- C8: draining any number of output slots from an empty jitter buffer
fills every slot with silence (0.0), leaves the buffer empty, and is total
— an underrun never blocks or fails, for mono and stereo outputs alike. -/
theorem C8_underrun_silence (channels slots : Nat) :
    drainOutput channels slots [] = (List.replicate slots 0, []) := by
  unfold drainOutput
  split
  · exact drainStereo_nil slots
  · exact drainMono_nil slots

/-! Connect-request validation. -/

/-- C9: a connect request whose destination address is empty or whitespace
only sets the status string to the validation message and changes nothing
else: the connected flag, the stop flag, every counter and the
session-thread state keep their values. -/
theorem C9_connect_validation (ip : List Char) (st : AppModel)
    (h : (wsTrim ip).isEmpty = true) :
    connect ip st = { st with status_message := "Please select a device first" } := by
  unfold connect
  rw [if_pos h]

/-- Witness for C9 at the one-blank address and a concrete state. -/
theorem C9_connect_validation_witness :
    (wsTrim [' ']).isEmpty = true
      ∧ connect [' '] ⟨1, 2, 3, 4, 5, "idle", false, false, false⟩
        = { (⟨1, 2, 3, 4, 5, "idle", false, false, false⟩ : AppModel) with
            status_message := "Please select a device first" } :=
  ⟨by decide,
   C9_connect_validation [' '] ⟨1, 2, 3, 4, 5, "idle", false, false, false⟩
     (by decide)⟩

end BudBridge
